import Mathlib

/-!
Verification development for the tapedrive mining program.

The development shallowly embeds the Rust sources:
  src/utils/src/tree.rs, src/utils/src/leaf.rs   (incremental Merkle tree)
  src/program/src/state/*.rs                     (account state and constants)
  src/program/src/instruction/mine/miner_mine.rs (mining transition helpers)
  src/program/src/instruction/tape/tape_finalize.rs, tape_write.rs
  src/program/src/instruction/spool/spool_pack.rs, spool_commit.rs
  src/api/src/utils.rs                           (recall derivation)

Machine integers are modelled as Nat / Int with the source's explicit
saturating, wrapping and truncating behaviour spelled out. The blake3
hash is an external cryptographic primitive, so it enters as an
explicit function parameter; every theorem holds for an arbitrary such
function unless it exhibits a concrete counterexample, in which case a
small concrete instance is supplied.
-/

namespace Tapedrive

/-! ## Machine-integer helpers -/

/-- Largest value of a u64. -/
def U64MAX : Nat := 2 ^ 64 - 1

/-- u64 saturating_add. -/
def satAdd64 (a b : Nat) : Nat := min (a + b) U64MAX

/-- u64 saturating_mul. -/
def satMul64 (a b : Nat) : Nat := min (a * b) U64MAX

/-- u64 wrapping addition: Rust's plain + in release builds. -/
def wrapAdd64 (a b : Nat) : Nat := (a + b) % 2 ^ 64

/-- Largest value of an i64. -/
def I64MAX : Int := 2 ^ 63 - 1

/-- Smallest value of an i64. -/
def I64MIN : Int := -(2 ^ 63)

/-- i64 saturating_add. -/
def satAddI64 (a b : Int) : Int := max I64MIN (min (a + b) I64MAX)

/-- i64 saturating_sub. -/
def satSubI64 (a b : Int) : Int := max I64MIN (min (a - b) I64MAX)

/-! ## Bytes and hashes

A Hash is the 32-byte digest of src/utils/src/leaf.rs, modelled as a
byte list. The blake3 compression itself is an external crate, so it is
a parameter: a function from a byte stream to a digest. hashv of
src/utils/src/leaf.rs feeds its slices to one hasher in order, which is
the hash of their concatenation. -/

/-- A 32-byte digest (src/utils/src/leaf.rs Hash), as a byte list. -/
abbrev Hash := List Nat

/-- The bytes of the domain tag b NODE. -/
def NODETAG : List Nat := [78, 79, 68, 69]

/-- The bytes of the domain tag b LEAF. -/
def LEAFTAG : List Nat := [76, 69, 65, 70]

/-- hashv from src/utils/src/leaf.rs: hash of the concatenated slices. -/
def hashv (blake3 : List Nat → Hash) (parts : List (List Nat)) : Hash :=
  blake3 parts.flatten

/-- Leaf::new from src/utils/src/leaf.rs: blake3 over b LEAF followed by
the data slices. -/
def leafNew (blake3 : List Nat → Hash) (data : List (List Nat)) : Hash :=
  blake3 (LEAFTAG ++ data.flatten)

/-- Rust lexicographic comparison of equal-length byte arrays
(left.to_bytes() <= right.to_bytes() in hash_left_right). -/
def bytesLe : List Nat → List Nat → Bool
  | [], _ => true
  | _ :: _, [] => false
  | a :: as, b :: bs => if a < b then true else if b < a then false else bytesLe as bs

/-- hash_left_right from src/utils/src/tree.rs: children are ordered by
byte value before hashing. -/
def hashLeftRight (blake3 : List Nat → Hash) (left right : Hash) : Hash :=
  if bytesLe left right then hashv blake3 [NODETAG, left, right]
  else hashv blake3 [NODETAG, right, left]

/-- Little-endian u64 bytes of a value (to_le_bytes). -/
def u64le (n : Nat) : List Nat :=
  (List.range 8).map (fun i => n / 256 ^ i % 256)

/-- u64::from_le_bytes over a byte list. -/
def leU64 (bytes : List Nat) : Nat :=
  bytes.foldr (fun b acc => b + 256 * acc) 0

/-! ## Protocol constants (src/program/src/state/constant.rs) -/

/-- Rent charged per segment per block. -/
def RENT_PER_SEGMENT : Nat := 100

/-- Duration of one block in seconds. -/
def BLOCK_DURATION_SECONDS : Nat := 60

/-- Number of blocks per epoch. -/
def EPOCH_BLOCKS : Nat := 10

/-- Adjustment interval in epochs. -/
def ADJUSTMENT_INTERVAL : Nat := 50

/-- Number of blocks per year. -/
def BLOCKS_PER_YEAR : Nat := 60 * 60 * 24 * 365 / BLOCK_DURATION_SECONDS

/-- Maximum reward scaling factor for miners. -/
def MAX_CONSISTENCY_MULTIPLIER : Nat := 32

/-- Minimum reward scaling factor for miners. -/
def MIN_CONSISTENCY_MULTIPLIER : Nat := 1

/-- Minimum mining difficulty. -/
def MIN_MINING_DIFFICULTY : Nat := 1

/-- Minimum block participation required to solve a block. -/
def MIN_PARTICIPATION_TARGET : Nat := 1

/-- Maximum block participation required to solve a block. -/
def MAX_PARTICIPATION_TARGET : Nat := 100

/-- Height of the segment Merkle tree. -/
def SEGMENT_TREE_HEIGHT : Nat := 18

/-- Number of hashes in a segment Merkle proof. -/
def SEGMENT_PROOF_LEN : Nat := SEGMENT_TREE_HEIGHT

/-- Epochs per year (miner_mine.rs EPOCHS_PER_YEAR). -/
def EPOCHS_PER_YEAR : Nat := 365 * 24 * 60 / EPOCH_BLOCKS

/-- TapeState::Unknown as u64. -/
def TapeStateUnknown : Nat := 0

/-- TapeState::Created as u64. -/
def TapeStateCreated : Nat := 1

/-- TapeState::Writing as u64. -/
def TapeStateWriting : Nat := 2

/-- TapeState::Finalized as u64. -/
def TapeStateFinalized : Nat := 3

/-! ## Recall derivation (src/api/src/utils.rs, duplicated in
src/program/src/instruction/mine/miner_mine.rs) -/

/-- compute_recall_tape: 1-based recall tape number. -/
def computeRecallTape (challenge : List Nat) (total_tapes : Nat) : Nat :=
  if total_tapes = 0 then 1
  else leU64 (challenge.take 8) % total_tapes + 1

/-- compute_recall_segment: 0-based recall segment number. -/
def computeRecallSegment (challenge : List Nat) (total_segments : Nat) : Nat :=
  if total_segments = 0 then 0
  else leU64 ((challenge.drop 8).take 8) % total_segments

/-! ## Account state (src/program/src/state) -/

/-- Epoch account (src/program/src/state/epoch.rs). -/
structure Epoch where
  number : Nat
  progress : Nat
  mining_difficulty : Nat
  packing_difficulty : Nat
  target_participation : Nat
  reward_rate : Nat
  duplicates : Nat
  last_epoch_at : Int
deriving DecidableEq

/-- Block account (src/program/src/state/block.rs). -/
structure Block where
  number : Nat
  progress : Nat
  challenge : List Nat
  challenge_set : Nat
  last_proof_at : Int
  last_block_at : Int
deriving DecidableEq

/-- Miner account (src/program/src/state/miner.rs). -/
structure Miner where
  authority : List Nat
  name : List Nat
  unclaimed_rewards : Nat
  challenge : List Nat
  commitment : List Nat
  multiplier : Nat
  last_proof_block : Nat
  last_proof_at : Int
  total_proofs : Nat
  total_rewards : Nat
deriving DecidableEq

/-- Tape account (src/program/src/state/tape.rs). -/
structure Tape where
  number : Nat
  state : Nat
  authority : List Nat
  name : List Nat
  merkle_seed : List Nat
  merkle_root : List Nat
  header : List Nat
  first_slot : Nat
  tail_slot : Nat
  balance : Nat
  last_rent_block : Nat
  total_segments : Nat
deriving DecidableEq

/-- Archive account (src/program/src/state/archive.rs). -/
structure Archive where
  tapes_stored : Nat
  segments_stored : Nat
deriving DecidableEq

/-- Merkle tree state (src/utils/src/tree.rs MerkleTree). The const
generic height N is the length of zero_values. -/
structure MerkleTree where
  root : Hash
  filled_subtrees : List Hash
  zero_values : List Hash
  next_index : Nat
deriving DecidableEq

/-- Spool account (src/program/src/state/spool.rs). -/
structure Spool where
  number : Nat
  authority : List Nat
  state : MerkleTree
  seed : List Nat
  contains : List Nat
  total_tapes : Nat
  last_proof_block : Nat
  last_proof_at : Int
deriving DecidableEq

/-- Merkle layer errors (BrineTreeError). -/
inductive BrineTreeError where
  | TreeFull
  | ProofLength
  | InvalidProof
deriving DecidableEq

/-- Protocol layer errors (tape_api TapeError). -/
inductive TapeError where
  | UnexpectedTape
  | SolutionTooEasy
  | SolutionInvalid
  | UnexpectedState
  | InsufficientRent
  | SpoolTooManyTapes
  | SpoolCommitFailed
  | SpoolPackFailed
  | SpoolUnpackFailed
  | WriteFailed
  | TapeTooLong
  | ClaimTooLarge
deriving DecidableEq

/-- The error type a submission can abort with: either a builtin
ProgramError or a protocol TapeError. -/
inductive PErr where
  | InvalidInstructionData
  | InvalidAccountData
  | TapeErr (e : TapeError)
deriving DecidableEq

/-! ## Tape helpers (src/program/src/state/tape.rs) -/

/-- Tape::rent_per_block: total_segments.saturating_mul(RENT_PER_SEGMENT). -/
def Tape.rentPerBlock (t : Tape) : Nat :=
  satMul64 t.total_segments RENT_PER_SEGMENT

/-- Tape::has_minimum_rent: balance covers one block of rent. -/
def Tape.hasMinimumRent (t : Tape) : Bool :=
  decide (t.rentPerBlock ≤ t.balance)

/-- Tape::can_finalize: balance covers a year of rent,
rent_per_block().saturating_mul(BLOCKS_PER_YEAR). -/
def Tape.canFinalize (t : Tape) : Bool :=
  decide (satMul64 t.rentPerBlock BLOCKS_PER_YEAR ≤ t.balance)

/-- Tape::rent_owed: blocks elapsed since last_rent_block (u64
saturating_sub) times rent_per_block, computed in u128 and then
truncated by the cast back to u64. -/
def Tape.rentOwed (t : Tape) (current_block : Nat) : Nat :=
  t.rentPerBlock * (current_block - t.last_rent_block) % 2 ^ 64

/-- Archive::block_reward: segments_stored.saturating_mul(RENT_PER_SEGMENT). -/
def Archive.blockReward (a : Archive) : Nat :=
  satMul64 a.segments_stored RENT_PER_SEGMENT

/-! ## Mining submission helpers
(src/program/src/instruction/mine/miner_mine.rs) -/

/-- has_stalled: no proof for longer than a block duration,
current_time > block.last_proof_at.saturating_add(60). -/
def hasStalled (b : Block) (current_time : Int) : Bool :=
  decide (satAddI64 b.last_proof_at (BLOCK_DURATION_SECONDS : Int) < current_time)

/-- check_submission: duplicate-in-block detection. Returns the updated
epoch on acceptance; an error mutates nothing. -/
def checkSubmission (m : Miner) (b : Block) (e : Epoch) (current_time : Int) :
    Except PErr Epoch :=
  if m.last_proof_block = b.number then
    if hasStalled b current_time then
      Except.ok { e with duplicates := satAdd64 e.duplicates 1 }
    else
      Except.error PErr.InvalidInstructionData
  else
    Except.ok e

/-- get_scaled_reward: reward.saturating_mul(multiplier)
.saturating_div(MAX_CONSISTENCY_MULTIPLIER). The source asserts
MIN ≤ multiplier ≤ MAX before dividing. -/
def getScaledReward (reward multiplier : Nat) : Nat :=
  satMul64 reward multiplier / MAX_CONSISTENCY_MULTIPLIER

/-- calculate_reward: equal share of the epoch reward rate, scaled by
the consistency multiplier, halved for an under-rented tape. The
saturating_div by target_participation panics in Rust when the target
is zero; theorems assume the protocol invariant 0 < target. -/
def calculateReward (e : Epoch) (t : Tape) (multiplier : Nat) : Nat :=
  let available := e.reward_rate / e.target_participation
  let scaled := getScaledReward available multiplier
  if t.hasMinimumRent then scaled else scaled / 2

/-- update_miner_state: the reward and proof counters use Rust's plain
addition (miner.unclaimed_rewards += final_reward and so on), which
wraps modulo 2^64 in a build without overflow checks. -/
def updateMinerState (m : Miner) (b : Block) (final_reward : Nat)
    (current_time : Int) (next_miner_challenge : List Nat) : Miner :=
  { m with
    unclaimed_rewards := wrapAdd64 m.unclaimed_rewards final_reward
    total_rewards := wrapAdd64 m.total_rewards final_reward
    total_proofs := wrapAdd64 m.total_proofs 1
    last_proof_block := b.number
    challenge := next_miner_challenge
    last_proof_at := current_time }

/-- update_tape_balance: subtract the rent owed at this block,
saturating at zero; last_rent_block is not touched. -/
def updateTapeBalance (t : Tape) (block_number : Nat) : Tape :=
  { t with balance := t.balance - t.rentOwed block_number }

/-! ## Epoch progression
(src/program/src/instruction/mine/miner_mine.rs) -/

/-- adjust_participation: raise the target by one (capped) on a clean
adjustment-boundary epoch, lower it by one (floored) when any
duplicates were seen. -/
def adjustParticipation (e : Epoch) : Epoch :=
  if e.duplicates = 0 then
    if e.number % ADJUSTMENT_INTERVAL = 0 then
      let tp := min (satAdd64 e.target_participation 1) MAX_PARTICIPATION_TARGET
      { e with target_participation := tp }
    else e
  else
    let tp := max (e.target_participation - 1) MIN_PARTICIPATION_TARGET
    { e with target_participation := tp }

/-- adjust_difficulty: raise the difficulty by one when the mean block
time was under the target, lower it by one (floored) otherwise. The
i64 division truncates toward zero. -/
def adjustDifficulty (e : Epoch) (current_time : Int) : Epoch :=
  let elapsed := satSubI64 current_time e.last_epoch_at
  let avg := Int.tdiv elapsed (EPOCH_BLOCKS : Int)
  if avg < (BLOCK_DURATION_SECONDS : Int) then
    { e with mining_difficulty := satAdd64 e.mining_difficulty 1 }
  else
    { e with mining_difficulty := max (e.mining_difficulty - 1) MIN_MINING_DIFFICULTY }

/-- advance_epoch: adjust both knobs, bump the number, reset progress
and duplicates, and clamp to the floors. -/
def advanceEpoch (e : Epoch) (current_time : Int) : Epoch :=
  let e2 := adjustDifficulty (adjustParticipation e) current_time
  { e2 with
    number := satAdd64 e2.number 1
    last_epoch_at := current_time
    progress := 0
    duplicates := 0
    mining_difficulty := max e2.mining_difficulty MIN_MINING_DIFFICULTY
    target_participation := max e2.target_participation MIN_PARTICIPATION_TARGET }

/-- get_base_rate: the hard-coded emission schedule. -/
def getBaseRate (current_epoch : Nat) : Nat :=
  if current_epoch < 1 * EPOCHS_PER_YEAR then 10000000000
  else if current_epoch < 2 * EPOCHS_PER_YEAR then 7500000000
  else if current_epoch < 3 * EPOCHS_PER_YEAR then 5625000000
  else if current_epoch < 4 * EPOCHS_PER_YEAR then 4218750000
  else if current_epoch < 5 * EPOCHS_PER_YEAR then 3164062500
  else if current_epoch < 6 * EPOCHS_PER_YEAR then 2373046875
  else if current_epoch < 7 * EPOCHS_PER_YEAR then 1779785156
  else if current_epoch < 8 * EPOCHS_PER_YEAR then 1334838867
  else if current_epoch < 9 * EPOCHS_PER_YEAR then 1001129150
  else if current_epoch < 10 * EPOCHS_PER_YEAR then 750846862
  else if current_epoch < 11 * EPOCHS_PER_YEAR then 563135147
  else if current_epoch < 12 * EPOCHS_PER_YEAR then 422351360
  else if current_epoch < 13 * EPOCHS_PER_YEAR then 316763520
  else if current_epoch < 14 * EPOCHS_PER_YEAR then 237572640
  else if current_epoch < 15 * EPOCHS_PER_YEAR then 178179480
  else if current_epoch < 16 * EPOCHS_PER_YEAR then 133634610
  else if current_epoch < 17 * EPOCHS_PER_YEAR then 100225957
  else if current_epoch < 18 * EPOCHS_PER_YEAR then 75169468
  else if current_epoch < 19 * EPOCHS_PER_YEAR then 56377101
  else if current_epoch < 20 * EPOCHS_PER_YEAR then 42282825
  else if current_epoch < 21 * EPOCHS_PER_YEAR then 31712119
  else if current_epoch < 22 * EPOCHS_PER_YEAR then 23784089
  else if current_epoch < 23 * EPOCHS_PER_YEAR then 17838067
  else if current_epoch < 24 * EPOCHS_PER_YEAR then 13378550
  else if current_epoch < 25 * EPOCHS_PER_YEAR then 10033913
  else 0

/-- update_epoch: advance the epoch once its block quota is met and
recompute the reward rate, otherwise just bump progress. -/
def updateEpoch (e : Epoch) (a : Archive) (current_time : Int) : Epoch :=
  if EPOCH_BLOCKS ≤ e.progress then
    let e2 := advanceEpoch e current_time
    { e2 with reward_rate := satAdd64 a.blockReward (getBaseRate e2.number) }
  else
    { e with progress := satAdd64 e.progress 1 }

/-! ## Tape finalize and write cores
(src/program/src/instruction/tape/tape_finalize.rs, tape_write.rs),
after account, signer and PDA validation -/

/-- process_tape_finalize state transition: requires the Writing state
and a year of prepaid rent, then numbers the tape from the archive
counter and finalizes it. -/
def finalizeCore (t : Tape) (a : Archive) : Except PErr (Tape × Archive) :=
  if t.state ≠ TapeStateWriting then
    Except.error PErr.InvalidAccountData
  else if ¬ t.canFinalize then
    Except.error PErr.InvalidAccountData
  else
    let a2 : Archive :=
      { tapes_stored := satAdd64 a.tapes_stored 1
        segments_stored := satAdd64 a.segments_stored t.total_segments }
    Except.ok ({ t with number := a2.tapes_stored, state := TapeStateFinalized }, a2)

/-- The tape-account update at the end of process_tape_write (lines
95 to 101): tape.total_segments += segment_count is Rust's plain
addition, the root is republished from the writer tree and the state
becomes Writing. -/
def tapeWriteApplyCounters (t : Tape) (segment_count : Nat) (writer_root : Hash)
    (current_slot : Nat) : Tape :=
  { t with
    total_segments := wrapAdd64 t.total_segments segment_count
    merkle_root := writer_root
    state := TapeStateWriting
    tail_slot := current_slot }

/-! ## Incremental Merkle tree operations (src/utils/src/tree.rs) -/

/-- The zero-value chain of calc_zeros: starting from a digest, each
next level hashes the previous one with itself under the NODE tag. -/
def selfChain (blake3 : List Nat → Hash) : Hash → Nat → List Hash
  | _, 0 => []
  | h, n + 1 => h :: selfChain blake3 (hashv blake3 [NODETAG, h, h]) n

/-- calc_zeros: the zero-subtree hashes derived from the seeds. -/
def calcZeros (blake3 : List Nat → Hash) (seeds : List (List Nat)) (n : Nat) :
    List Hash :=
  selfChain blake3 (hashv blake3 seeds) n

/-- MerkleTree::new for height n. The source reads zeros[N - 1] for the
initial root, which panics for N = 0; the model uses the last chain
element and every theorem assumes 1 ≤ N. -/
def MerkleTree.new (blake3 : List Nat → Hash) (seeds : List (List Nat)) (n : Nat) :
    MerkleTree :=
  let zeros := calcZeros blake3 seeds n
  { next_index := 0
    root := zeros.getLastD []
    filled_subtrees := zeros
    zero_values := zeros }

/-- The level loop of try_add_leaf, one recursive step per level: at an
even index the running hash is recorded into filled_subtrees and paired
with the zero value; at an odd index it is paired with the stored
filled subtree. Returns the new root and the new filled_subtrees. -/
def addLoop (f : Hash → Hash → Hash) :
    List Hash → List Hash → Nat → Hash → Hash × List Hash
  | z :: zs, s :: ss, idx, h =>
    if idx % 2 = 0 then
      let r := addLoop f zs ss (idx / 2) (f h z)
      (r.1, h :: r.2)
    else
      let r := addLoop f zs ss (idx / 2) (f s h)
      (r.1, s :: r.2)
  | _, _, _, h => (h, [])

/-- MerkleTree::try_add_leaf: fails with TreeFull at capacity 2^N,
otherwise runs the level loop and advances next_index. -/
def MerkleTree.tryAddLeaf (blake3 : List Nat → Hash) (t : MerkleTree) (leaf : Hash) :
    Except BrineTreeError MerkleTree :=
  if t.next_index < 2 ^ t.zero_values.length then
    let r := addLoop (hashLeftRight blake3) t.zero_values t.filled_subtrees
      t.next_index leaf
    Except.ok { t with root := r.1, filled_subtrees := r.2, next_index := t.next_index + 1 }
  else
    Except.error BrineTreeError.TreeFull

/-- Appending a list of leaves in order, stopping at the first error. -/
def foldAdds (blake3 : List Nat → Hash) :
    MerkleTree → List Hash → Except BrineTreeError MerkleTree
  | t, [] => Except.ok t
  | t, x :: xs =>
    match t.tryAddLeaf blake3 x with
    | Except.ok t2 => foldAdds blake3 t2 xs
    | Except.error e => Except.error e

/-- MerkleTree::get_root. -/
def MerkleTree.getRoot (t : MerkleTree) : Hash := t.root

/-- The authentication-path fold shared by verify and verify_no_std:
hash the running digest with each proof element in order. -/
def chainRoot (f : Hash → Hash → Hash) (leafh : Hash) (proof : List Hash) : Hash :=
  proof.foldl f leafh

/-- verify_no_std from src/utils/src/tree.rs: the recomputed path head
must equal the root. -/
def verifyNoStd (blake3 : List Nat → Hash) (root : Hash) (proof : List Hash)
    (leafh : Hash) : Bool :=
  decide (chainRoot (hashLeftRight blake3) leafh proof = root)

/-! ## Spool cores (src/program/src/instruction/spool/spool_pack.rs,
spool_commit.rs), after account, signer and PDA validation.
The numeric value of MAX_TAPES_PER_SPOOL lives in tape_api::consts,
which is not among the sources; the cap is therefore a parameter. -/

/-- process_spool_pack state transition: Finalized tape with an
assigned number, cap check with a non-strict comparison, leaf append,
and a plain total_tapes += 1. -/
def spoolPackCore (blake3 : List Nat → Hash) (maxTapesPerSpool : Nat)
    (s : Spool) (t : Tape) (value : List Nat) : Except PErr Spool :=
  if t.state ≠ TapeStateFinalized then
    Except.error (PErr.TapeErr TapeError.UnexpectedState)
  else if t.number = 0 then
    Except.error (PErr.TapeErr TapeError.UnexpectedState)
  else if ¬ s.total_tapes ≤ maxTapesPerSpool then
    Except.error (PErr.TapeErr TapeError.SpoolTooManyTapes)
  else
    match s.state.tryAddLeaf blake3 (leafNew blake3 [u64le t.number, value]) with
    | Except.ok st =>
      Except.ok { s with state := st, total_tapes := wrapAdd64 s.total_tapes 1 }
    | Except.error _ => Except.error (PErr.TapeErr TapeError.SpoolPackFailed)

/-- process_spool_commit state transition: the proof is checked to
resolve the raw value (Leaf::from wraps the 32 bytes unhashed) against
spool.contains, and on success the value is recorded as the miner's
commitment. -/
def spoolCommitCore (blake3 : List Nat → Hash) (m : Miner) (s : Spool)
    (value : List Nat) (proof : List Hash) : Except PErr Miner :=
  if proof.length ≠ SEGMENT_PROOF_LEN then
    Except.error PErr.InvalidInstructionData
  else if verifyNoStd blake3 s.contains proof value then
    Except.ok { m with commitment := value }
  else
    Except.error (PErr.TapeErr TapeError.SpoolCommitFailed)

/-! ## Canonical Merkle root

The specification-side description of the tree invariant: the root of
the complete depth-N binary tree over the appended leaves padded to
2^N with the zero leaf, folded level by level with the canonicalized
node hash. -/

/-- Hash adjacent complete pairs of one level (the padded level always
has even length). -/
def pairUp (f : Hash → Hash → Hash) : List Hash → List Hash
  | a :: b :: rest => f a b :: pairUp f rest
  | _ => []

/-- Fold n levels bottom-up. -/
def foldLevels (f : Hash → Hash → Hash) : Nat → List Hash → List Hash
  | 0, ls => ls
  | n + 1, ls => foldLevels f n (pairUp f ls)

/-- Modelled from the spec: the canonical Merkle root of the appended
leaves padded to 2^n leaves with the zero leaf z0, to be compared with
the root the incremental algorithm maintains. -/
def canonicalPaddedRoot (f : Hash → Hash → Hash) (z0 : Hash) (n : Nat)
    (leaves : List Hash) : Hash :=
  (foldLevels f n (leaves ++ List.replicate (2 ^ n - leaves.length) z0)).headD z0

/-- Hash adjacent pairs, padding a trailing unpaired node with the
level's zero value. -/
def pairUpPad (f : Hash → Hash → Hash) (z : Hash) : List Hash → List Hash
  | [] => []
  | [a] => [f a z]
  | a :: b :: rest => f a b :: pairUpPad f z rest

/-- The canonical root computed level by level against the zero-value
list, the recursion mirroring the shape of the incremental algorithm. -/
def canonRec (f : Hash → Hash → Hash) : List Hash → List Hash → Hash
  | [], ls => ls.headD []
  | z :: zs, ls => canonRec f zs (pairUpPad f z ls)

/-! ## Fold helpers used by the statements and proofs -/

/-- The running state of repeated try_add_leaf calls, stripped to the
fields the loop touches: root, filled_subtrees, next_index. -/
def addAll (f : Hash → Hash → Hash) (zs : List Hash) :
    Hash × List Hash × Nat → List Hash → Hash × List Hash × Nat
  | s, [] => s
  | (_, fs, k), x :: xs =>
    let st := addLoop f zs fs k x
    addAll f zs (st.1, st.2, k + 1) xs

/-- The zero-value chain for an arbitrary node-hash function: each
level is the previous one combined with itself. -/
def fchain (f : Hash → Hash → Hash) : Hash → Nat → List Hash
  | _, 0 => []
  | z, n + 1 => z :: fchain f (f z z) n

/-- A sequence of epoch updates, one per accepted mine submission. -/
def epochFold (e : Epoch) (steps : List (Archive × Int)) : Epoch :=
  steps.foldl (fun acc s => updateEpoch acc s.1 s.2) e

/-! ## Concrete instances for counterexamples and witnesses -/

/-- A tiny stand-in digest function for concrete evaluation: the digest
is the input length. Collision-prone, which no counterexample relies
on; they only evaluate both sides of an equation under it. -/
def cblake (bs : List Nat) : Hash := [bs.length]

/-- A zeroed epoch with the difficulty and participation floors. -/
def epoch0 : Epoch :=
  { number := 0, progress := 0, mining_difficulty := 1, packing_difficulty := 0
    target_participation := 1, reward_rate := 0, duplicates := 0, last_epoch_at := 0 }

/-- A zeroed block. -/
def block0 : Block :=
  { number := 0, progress := 0, challenge := [], challenge_set := 0
    last_proof_at := 0, last_block_at := 0 }

/-- A zeroed miner. -/
def miner0 : Miner :=
  { authority := [], name := [], unclaimed_rewards := 0, challenge := []
    commitment := [], multiplier := 0, last_proof_block := 0, last_proof_at := 0
    total_proofs := 0, total_rewards := 0 }

/-- A zeroed tape. -/
def tape0 : Tape :=
  { number := 0, state := TapeStateCreated, authority := [], name := []
    merkle_seed := [], merkle_root := [], header := [], first_slot := 0
    tail_slot := 0, balance := 0, last_rent_block := 0, total_segments := 0 }

/-- A zeroed archive. -/
def archive0 : Archive := { tapes_stored := 0, segments_stored := 0 }

/-- A spool over a fresh height-2 tree built with the concrete digest. -/
def spool0 : Spool :=
  { number := 0, authority := [], state := MerkleTree.new cblake [[1]] 2
    seed := [], contains := [], total_tapes := 0, last_proof_block := 0
    last_proof_at := 0 }

/-- Decidable equality of submission outcomes, for concrete
evaluation. -/
instance {ε α : Type} [DecidableEq ε] [DecidableEq α] : DecidableEq (Except ε α) :=
  fun x y =>
    match x, y with
    | Except.ok a, Except.ok b =>
      if h : a = b then isTrue (by rw [h]) else isFalse (by simp [h])
    | Except.error a, Except.error b =>
      if h : a = b then isTrue (by rw [h]) else isFalse (by simp [h])
    | Except.ok _, Except.error _ => isFalse (by simp)
    | Except.error _, Except.ok _ => isFalse (by simp)

/-! # Theorems -/

/-! ## Claim C2: recall derivation -/

/-- C2: compute_recall_tape returns 1 when the challenge set is zero
and otherwise le_u64 of bytes 0..8 mod challenge_set plus 1, which
always lies in 1..=challenge_set; compute_recall_segment returns 0 when
total_segments is zero and otherwise le_u64 of bytes 8..16 mod
total_segments, which is always below total_segments; both functions
are total, so neither panics. -/
theorem recall_derivation (c : List Nat) (s t : Nat) :
    computeRecallTape c 0 = 1 ∧
    computeRecallSegment c 0 = 0 ∧
    (s ≠ 0 →
      computeRecallTape c s = leU64 (c.take 8) % s + 1 ∧
      1 ≤ computeRecallTape c s ∧ computeRecallTape c s ≤ s) ∧
    (t ≠ 0 →
      computeRecallSegment c t = leU64 ((c.drop 8).take 8) % t ∧
      computeRecallSegment c t < t) := by
  refine ⟨rfl, rfl, fun hs => ⟨?_, ?_, ?_⟩, fun ht => ⟨?_, ?_⟩⟩
  · simp [computeRecallTape, hs]
  · simp [computeRecallTape, hs]
  · simp only [computeRecallTape, hs, if_false]
    exact Nat.succ_le_of_lt (Nat.mod_lt _ (Nat.pos_of_ne_zero hs))
  · simp [computeRecallSegment, ht]
  · simp only [computeRecallSegment, ht, if_false]
    exact Nat.mod_lt _ (Nat.pos_of_ne_zero ht)

/-- C2 witness: the recall bounds evaluated on a concrete challenge
with challenge_set 5 and total_segments 3. -/
theorem recall_derivation_witness :
    (5 ≠ 0 ∧ 3 ≠ 0) ∧
    computeRecallTape [1, 0, 0, 0, 0, 0, 0, 0, 2, 0, 0, 0, 0, 0, 0, 0] 5 =
      leU64 [1, 0, 0, 0, 0, 0, 0, 0] % 5 + 1 ∧
    computeRecallSegment [1, 0, 0, 0, 0, 0, 0, 0, 2, 0, 0, 0, 0, 0, 0, 0] 3 < 3 :=
  ⟨⟨by decide, by decide⟩,
    ((recall_derivation [1, 0, 0, 0, 0, 0, 0, 0, 2, 0, 0, 0, 0, 0, 0, 0] 5 3).2.2.1
      (by decide)).1,
    ((recall_derivation [1, 0, 0, 0, 0, 0, 0, 0, 2, 0, 0, 0, 0, 0, 0, 0] 5 3).2.2.2
      (by decide)).2⟩

/-! ## Claim C3: duplicate-in-block timing -/

/-- C3 counterexample: with epoch.duplicates already at the u64
maximum, a stalled duplicate submission is accepted but leaves
duplicates unchanged, refuting the claim that an accepted stalled
duplicate increments epoch.duplicates by exactly 1. -/
theorem check_submission_saturation_counterexample :
    checkSubmission { miner0 with last_proof_block := 7 } { block0 with number := 7 }
        { epoch0 with duplicates := U64MAX } 1000 =
      Except.ok { epoch0 with duplicates := U64MAX } ∧
    U64MAX ≠ U64MAX + 1 := by
  constructor
  · decide
  · decide

/-- C3 amended: when the miner already proved in the current block, a
submission before the stall threshold fails with no state change, a
submission after it is accepted with duplicates bumped by a saturating
increment (one more, capped at the u64 maximum), and a submission for a
different block number is accepted with duplicates untouched. Times are
within i64 range, so the saturating timestamp addition of the source
agrees with the plain sum of the claim. -/
theorem check_submission_timing (m : Miner) (b : Block) (e : Epoch)
    (now : Int) (hnow : now ≤ I64MAX) (hlpa : I64MIN ≤ b.last_proof_at) :
    (m.last_proof_block = b.number →
      now ≤ b.last_proof_at + (BLOCK_DURATION_SECONDS : Int) →
      checkSubmission m b e now = Except.error PErr.InvalidInstructionData) ∧
    (m.last_proof_block = b.number →
      b.last_proof_at + (BLOCK_DURATION_SECONDS : Int) < now →
      checkSubmission m b e now =
        Except.ok { e with duplicates := satAdd64 e.duplicates 1 }) ∧
    (m.last_proof_block ≠ b.number → checkSubmission m b e now = Except.ok e) := by
  have hstall : hasStalled b now = true ↔
      b.last_proof_at + (BLOCK_DURATION_SECONDS : Int) < now := by
    simp only [hasStalled, satAddI64, decide_eq_true_eq]
    omega
  refine ⟨fun heq hle => ?_, fun heq hlt => ?_, fun hne => ?_⟩
  · have : hasStalled b now = false := by
      rcases Bool.eq_false_or_eq_true (hasStalled b now) with h | h
      · exact absurd (hstall.mp h) (by omega)
      · exact h
    simp [checkSubmission, heq, this]
  · simp [checkSubmission, heq, hstall.mpr hlt]
  · simp [checkSubmission, hne]

/-- C3 witness: the three timing branches evaluated on concrete
states. -/
theorem check_submission_timing_witness :
    ((3 : Int) ≤ I64MAX ∧ I64MIN ≤ (0 : Int)) ∧
    checkSubmission { miner0 with last_proof_block := 7 } { block0 with number := 7 }
      epoch0 3 = Except.error PErr.InvalidInstructionData ∧
    checkSubmission { miner0 with last_proof_block := 7 } { block0 with number := 7 }
      epoch0 61 = Except.ok { epoch0 with duplicates := satAdd64 epoch0.duplicates 1 } ∧
    checkSubmission miner0 { block0 with number := 7 } epoch0 3 = Except.ok epoch0 := by
  refine ⟨⟨by decide, by decide⟩, ?_, ?_, ?_⟩
  · exact (check_submission_timing { miner0 with last_proof_block := 7 }
      { block0 with number := 7 } epoch0 3 (by decide) (by decide)).1 (by decide) (by decide)
  · exact (check_submission_timing { miner0 with last_proof_block := 7 }
      { block0 with number := 7 } epoch0 61 (by decide) (by decide)).2.1 (by decide) (by decide)
  · exact (check_submission_timing miner0 { block0 with number := 7 } epoch0 3
      (by decide) (by decide)).2.2 (by decide)

/-! ## Claim C4: reward formula and halving -/

/-- C4 counterexample: with reward_rate 1, target 1 and the maximal
multiplier the solvent reward is 1 and the insolvent reward is 0, which
is not exactly half of 1; and with reward_rate at the u64 maximum and
multiplier 2 the saturating multiply caps the product, so the reward is
not the plain-arithmetic value the claim states. -/
theorem reward_exact_half_counterexample :
    calculateReward { epoch0 with reward_rate := 1, target_participation := 1 }
      tape0 32 = 1 ∧
    calculateReward { epoch0 with reward_rate := 1, target_participation := 1 }
      { tape0 with total_segments := 1 } 32 = 0 ∧
    2 * 0 ≠ 1 ∧
    calculateReward { epoch0 with reward_rate := U64MAX, target_participation := 1 }
      tape0 2 = U64MAX / 32 ∧
    U64MAX / 32 ≠ U64MAX * 2 / 32 := by
  refine ⟨by decide, by decide, by decide, ?_, by decide⟩
  decide

/-- C4 amended: the reward of an accepted submission is the epoch
reward rate divided by the participation target, then multiplied by the
multiplier and divided by MAX_CONSISTENCY_MULTIPLIER with saturating
u64 arithmetic; equal to the plain-arithmetic formula whenever the
product does not overflow. An under-rented tape earns the floor of half
the otherwise-identical solvent reward, which is exactly half precisely
when the solvent reward is even. -/
theorem reward_calculation (e : Epoch) (t tIns : Tape) (m : Nat)
    (_h1 : MIN_CONSISTENCY_MULTIPLIER ≤ m) (_h2 : m ≤ MAX_CONSISTENCY_MULTIPLIER)
    (hsolv : t.hasMinimumRent = true) (hins : tIns.hasMinimumRent = false) :
    calculateReward e t m =
      getScaledReward (e.reward_rate / e.target_participation) m ∧
    calculateReward e tIns m = calculateReward e t m / 2 ∧
    (calculateReward e t m % 2 = 0 →
      2 * calculateReward e tIns m = calculateReward e t m) ∧
    (e.reward_rate / e.target_participation * m ≤ U64MAX →
      calculateReward e t m =
        e.reward_rate / e.target_participation * m / MAX_CONSISTENCY_MULTIPLIER) := by
  refine ⟨by simp [calculateReward, hsolv], by simp [calculateReward, hsolv, hins],
    fun hev => ?_, fun hle => ?_⟩
  · have e1 : calculateReward e t m =
        getScaledReward (e.reward_rate / e.target_participation) m := by
      simp [calculateReward, hsolv]
    have e2 : calculateReward e tIns m =
        getScaledReward (e.reward_rate / e.target_participation) m / 2 := by
      simp [calculateReward, hins]
    rw [e1] at hev
    rw [e1, e2]
    omega
  · simp [calculateReward, hsolv, getScaledReward, satMul64, Nat.min_eq_left hle]

/-- C4 witness: reward rate 64 shared by 2, multiplier 4: solvent
reward 4, insolvent reward 2, which is exactly half. -/
theorem reward_calculation_witness :
    (MIN_CONSISTENCY_MULTIPLIER ≤ 4 ∧ 4 ≤ MAX_CONSISTENCY_MULTIPLIER ∧
      Tape.hasMinimumRent tape0 = true ∧
      Tape.hasMinimumRent { tape0 with total_segments := 1 } = false) ∧
    calculateReward { epoch0 with reward_rate := 64, target_participation := 2 }
      tape0 4 = 4 ∧
    calculateReward { epoch0 with reward_rate := 64, target_participation := 2 }
      { tape0 with total_segments := 1 } 4 = 2 ∧
    2 * calculateReward { epoch0 with reward_rate := 64, target_participation := 2 }
      { tape0 with total_segments := 1 } 4 =
      calculateReward { epoch0 with reward_rate := 64, target_participation := 2 }
      tape0 4 := by
  have h := reward_calculation { epoch0 with reward_rate := 64, target_participation := 2 }
    tape0 { tape0 with total_segments := 1 } 4 (by decide) (by decide) (by decide) (by decide)
  refine ⟨⟨by decide, by decide, by decide, by decide⟩, by decide, by decide, ?_⟩
  exact h.2.2.1 (by decide)

/-! ## Claim C5: finalization gate and effects -/

/-- C5 counterexample: a Writing tape with 2^60 segments and the
maximal u64 balance finalizes successfully, although its balance is far
below the plain-arithmetic year of rent the claim requires, because the
threshold is computed with saturating multiplication. -/
theorem finalize_saturation_counterexample :
    finalizeCore
        { tape0 with state := TapeStateWriting, total_segments := 2 ^ 60, balance := U64MAX }
        archive0 =
      Except.ok
        ({ tape0 with state := TapeStateFinalized, total_segments := 2 ^ 60, balance := U64MAX, number := 1 },
         { tapes_stored := 1, segments_stored := 2 ^ 60 }) ∧
    U64MAX < 2 ^ 60 * RENT_PER_SEGMENT * BLOCKS_PER_YEAR := by
  constructor
  · decide
  · decide

/-- C5 amended: finalization succeeds iff the tape state is exactly
Writing and the balance reaches the year-of-rent threshold computed
with saturating u64 multiplication; on success the tape number becomes
the saturating increment of the previous archive.tapes_stored, the
archive counters grow by one tape and by total_segments, the state
becomes Finalized, and every other tape field is unchanged; on failure,
in particular from the terminal Finalized state, an error is returned
and nothing changes. -/
theorem finalize_transition (t : Tape) (a : Archive) :
    (t.state = TapeStateWriting → t.canFinalize = true →
      finalizeCore t a =
        Except.ok
          ({ t with number := satAdd64 a.tapes_stored 1, state := TapeStateFinalized },
           { tapes_stored := satAdd64 a.tapes_stored 1,
             segments_stored := satAdd64 a.segments_stored t.total_segments })) ∧
    (t.state ≠ TapeStateWriting →
      finalizeCore t a = Except.error PErr.InvalidAccountData) ∧
    (t.canFinalize = false →
      finalizeCore t a = Except.error PErr.InvalidAccountData) ∧
    (t.canFinalize = true ↔
      satMul64 (satMul64 t.total_segments RENT_PER_SEGMENT) BLOCKS_PER_YEAR ≤ t.balance) ∧
    (t.state = TapeStateFinalized →
      finalizeCore t a = Except.error PErr.InvalidAccountData) := by
  refine ⟨fun hw hc => ?_, fun hs => ?_, fun hc => ?_, ?_, fun hf => ?_⟩
  · simp [finalizeCore, hw, hc]
  · simp [finalizeCore, hs]
  · by_cases hw : t.state = TapeStateWriting
    · simp [finalizeCore, hw, hc]
    · simp [finalizeCore, hw]
  · simp [Tape.canFinalize, Tape.rentPerBlock]
  · have hs : t.state ≠ TapeStateWriting := by
      rw [hf]; decide
    simp [finalizeCore, hs]

/-- C5 witness: a one-segment Writing tape funded with exactly a year
of rent finalizes into tape number 1, and the same tape finalized twice
fails the second time. -/
theorem finalize_transition_witness :
    (Tape.canFinalize { tape0 with state := TapeStateWriting, total_segments := 1, balance := 52560000 } = true) ∧
    finalizeCore { tape0 with state := TapeStateWriting, total_segments := 1, balance := 52560000 }
      archive0 =
      Except.ok
        ({ tape0 with state := TapeStateFinalized, total_segments := 1, balance := 52560000, number := 1 },
         { tapes_stored := 1, segments_stored := 1 }) ∧
    finalizeCore { tape0 with state := TapeStateFinalized, total_segments := 1, balance := 52560000, number := 1 }
      { tapes_stored := 1, segments_stored := 1 } =
      Except.error PErr.InvalidAccountData := by
  refine ⟨by decide, ?_, ?_⟩
  · have h := (finalize_transition { tape0 with state := TapeStateWriting, total_segments := 1, balance := 52560000 }
      archive0).1 (by decide) (by decide)
    exact h.trans (by decide)
  · exact (finalize_transition { tape0 with state := TapeStateFinalized, total_segments := 1, balance := 52560000, number := 1 }
      { tapes_stored := 1, segments_stored := 1 }).2.2.2.2 (by decide)

/-! ## Claim C6: counter arithmetic on the submission paths -/

/-- C6: the reward and proof counters of update_miner_state, the
total_segments update of process_tape_write and the total_tapes update
of process_spool_pack use plain u64 addition, which wraps around zero
at the u64 maximum instead of saturating, contradicting the stated
always-saturating arithmetic. -/
theorem plain_counter_updates_wrap :
    (updateMinerState { miner0 with unclaimed_rewards := U64MAX } block0 1 0
      []).unclaimed_rewards = 0 ∧
    (updateMinerState { miner0 with total_proofs := U64MAX } block0 0 0
      []).total_proofs = 0 ∧
    (tapeWriteApplyCounters { tape0 with total_segments := U64MAX } 1 []
      0).total_segments = 0 ∧
    (match spoolPackCore cblake U64MAX { spool0 with total_tapes := U64MAX }
        { tape0 with state := TapeStateFinalized, number := 1 } [] with
      | Except.ok s2 => s2.total_tapes
      | Except.error _ => 1) = 0 ∧
    wrapAdd64 U64MAX 1 ≠ satAdd64 U64MAX 1 := by
  refine ⟨by decide, by decide, by decide, by decide, by decide⟩

/-! ## Claim C9: rent charging leaves last_rent_block alone -/

/-- C9 counterexample: a tape with 2^57 segments owes
100 * 2^57 * 128 = 100 * 2^64 lamports of rent over 128 blocks, but the
u128-to-u64 cast in rent_owed truncates that to zero, so an accepted
submission charges nothing even though the plain-arithmetic rent of the
claim is positive and exceeds the balance. -/
theorem rent_truncation_counterexample :
    (updateTapeBalance { tape0 with total_segments := 2 ^ 57, balance := 5 } 128).balance =
      ({ tape0 with total_segments := 2 ^ 57, balance := 5 } : Tape).balance ∧
    0 < ({ tape0 with total_segments := 2 ^ 57, balance := 5 } : Tape).total_segments *
      RENT_PER_SEGMENT * (128 - tape0.last_rent_block) := by
  constructor
  · decide
  · decide

/-- C9 amended: update_tape_balance changes only the balance,
subtracting (saturating at zero) the rent owed since last_rent_block,
where the owed rent is the saturating per-block rent times the elapsed
blocks, truncated modulo 2^64 by the cast to u64; last_rent_block is
never rewritten, so a second accepted submission recalling the same
tape at the same block number subtracts the full accrued rent again. -/
theorem rent_charging_frame (t : Tape) (n : Nat) :
    updateTapeBalance t n = { t with balance := t.balance - t.rentOwed n } ∧
    (updateTapeBalance t n).last_rent_block = t.last_rent_block ∧
    t.rentOwed n =
      satMul64 t.total_segments RENT_PER_SEGMENT * (n - t.last_rent_block) % 2 ^ 64 ∧
    (updateTapeBalance (updateTapeBalance t n) n).balance =
      t.balance - t.rentOwed n - t.rentOwed n ∧
    (updateTapeBalance (updateTapeBalance t n) n).last_rent_block =
      t.last_rent_block := by
  refine ⟨rfl, rfl, rfl, ?_, rfl⟩
  simp [updateTapeBalance, Tape.rentOwed, Tape.rentPerBlock]

/-! ## Claim C10: spool pack capacity check -/

/-- C10 counterexample: with the spool over capacity but the tape not
Finalized, spool_pack fails with UnexpectedState rather than
SpoolTooManyTapes, refuting the unconditional if-and-only-if. -/
theorem spool_pack_state_precedence_counterexample :
    spoolPackCore cblake 0 { spool0 with total_tapes := 5 }
      { tape0 with state := TapeStateWriting } [] =
      Except.error (PErr.TapeErr TapeError.UnexpectedState) ∧
    0 < ({ spool0 with total_tapes := 5 } : Spool).total_tapes ∧
    (Except.error (PErr.TapeErr TapeError.UnexpectedState) : Except PErr Spool) ≠
      Except.error (PErr.TapeErr TapeError.SpoolTooManyTapes) := by
  refine ⟨by decide, by decide, by decide⟩

/-- C10 amended: for a Finalized tape with a nonzero number, spool_pack
fails with SpoolTooManyTapes exactly when total_tapes exceeds the cap
on entry; a pack submitted at total_tapes equal to the cap with a
non-full tree is accepted and stores the appended tree with total_tapes
bumped by a wrapping increment, so after successful packs total_tapes
reaches the cap plus one. -/
theorem spool_pack_cap (blake3 : List Nat → Hash) (cap : Nat) (s : Spool)
    (t : Tape) (v : List Nat)
    (hF : t.state = TapeStateFinalized) (hN : t.number ≠ 0) :
    (spoolPackCore blake3 cap s t v =
        Except.error (PErr.TapeErr TapeError.SpoolTooManyTapes) ↔
      cap < s.total_tapes) ∧
    (s.total_tapes ≤ cap →
      s.state.next_index < 2 ^ s.state.zero_values.length →
      spoolPackCore blake3 cap s t v =
        Except.ok { s with
          state := { s.state with
            root := (addLoop (hashLeftRight blake3) s.state.zero_values
              s.state.filled_subtrees s.state.next_index
              (leafNew blake3 [u64le t.number, v])).1
            filled_subtrees := (addLoop (hashLeftRight blake3) s.state.zero_values
              s.state.filled_subtrees s.state.next_index
              (leafNew blake3 [u64le t.number, v])).2
            next_index := s.state.next_index + 1 }
          total_tapes := wrapAdd64 s.total_tapes 1 }) ∧
    (s.total_tapes = cap → cap < U64MAX →
      s.state.next_index < 2 ^ s.state.zero_values.length →
      (match spoolPackCore blake3 cap s t v with
        | Except.ok s2 => s2.total_tapes
        | Except.error _ => 0) = cap + 1) := by
  have hadd : ∀ hcap : s.total_tapes ≤ cap,
      s.state.next_index < 2 ^ s.state.zero_values.length →
      spoolPackCore blake3 cap s t v =
        Except.ok { s with
          state := { s.state with
            root := (addLoop (hashLeftRight blake3) s.state.zero_values
              s.state.filled_subtrees s.state.next_index
              (leafNew blake3 [u64le t.number, v])).1
            filled_subtrees := (addLoop (hashLeftRight blake3) s.state.zero_values
              s.state.filled_subtrees s.state.next_index
              (leafNew blake3 [u64le t.number, v])).2
            next_index := s.state.next_index + 1 }
          total_tapes := wrapAdd64 s.total_tapes 1 } := by
    intro hcap hroom
    simp [spoolPackCore, hF, hN, hcap, MerkleTree.tryAddLeaf, hroom]
  refine ⟨?_, fun hcap hroom => hadd hcap hroom, fun heq hlt hroom => ?_⟩
  · constructor
    · intro hres
      by_contra hnlt
      have hle : s.total_tapes ≤ cap := not_lt.mp hnlt
      by_cases hroom : s.state.next_index < 2 ^ s.state.zero_values.length
      · rw [hadd hle hroom] at hres
        exact absurd hres (by simp)
      · have hfail : spoolPackCore blake3 cap s t v =
            Except.error (PErr.TapeErr TapeError.SpoolPackFailed) := by
          simp [spoolPackCore, hF, hN, hle, MerkleTree.tryAddLeaf, hroom]
        rw [hfail] at hres
        exact absurd hres (by simp)
    · intro hlt
      have hn : ¬ s.total_tapes ≤ cap := not_le.mpr hlt
      simp [spoolPackCore, hF, hN, hn]
  · rw [hadd (le_of_eq heq) hroom]
    have hpow : (2 : Nat) ^ 64 = 18446744073709551616 := by norm_num
    have hlt2 : cap + 1 < 2 ^ 64 := by
      simp only [U64MAX, hpow] at hlt ⊢
      omega
    simp [wrapAdd64, heq, Nat.mod_eq_of_lt hlt2]
    omega

/-- C10 witness: a spool holding exactly the cap of 3 tapes accepts one
more Finalized tape, reaching 4 packed tapes. -/
theorem spool_pack_cap_witness :
    (({ tape0 with state := TapeStateFinalized, number := 1 } : Tape).state =
      TapeStateFinalized ∧
      ({ tape0 with state := TapeStateFinalized, number := 1 } : Tape).number ≠ 0) ∧
    (match spoolPackCore cblake 3 { spool0 with total_tapes := 3 }
        { tape0 with state := TapeStateFinalized, number := 1 } [9] with
      | Except.ok s2 => s2.total_tapes
      | Except.error _ => 0) = 4 := by
  refine ⟨⟨by decide, by decide⟩, ?_⟩
  exact (spool_pack_cap cblake 3 { spool0 with total_tapes := 3 }
    { tape0 with state := TapeStateFinalized, number := 1 } [9]
    (by decide) (by decide)).2.2 (by decide) (by decide) (by decide)

/-! ## Claim C7: difficulty and participation stay bounded -/

/-- Numeric value of the u64 maximum, for the arithmetic tactics. -/
theorem u64max_eq : U64MAX = 18446744073709551615 := by norm_num [U64MAX]

/-- adjust_participation: bounds, step size and direction of the
participation-target change, and the frame on the other fields. -/
theorem adjustParticipation_bounds (e : Epoch)
    (hlo : 1 ≤ e.target_participation) (hhi : e.target_participation ≤ 100) :
    1 ≤ (adjustParticipation e).target_participation ∧
    (adjustParticipation e).target_participation ≤ 100 ∧
    (adjustParticipation e).target_participation ≤ e.target_participation + 1 ∧
    e.target_participation ≤ (adjustParticipation e).target_participation + 1 ∧
    (e.target_participation < (adjustParticipation e).target_participation →
      e.duplicates = 0 ∧ e.number % ADJUSTMENT_INTERVAL = 0) ∧
    ((adjustParticipation e).target_participation < e.target_participation →
      0 < e.duplicates) ∧
    (adjustParticipation e).mining_difficulty = e.mining_difficulty ∧
    (adjustParticipation e).duplicates = e.duplicates ∧
    (adjustParticipation e).number = e.number ∧
    (adjustParticipation e).last_epoch_at = e.last_epoch_at := by
  simp only [adjustParticipation, satAdd64, u64max_eq, MAX_PARTICIPATION_TARGET,
    MIN_PARTICIPATION_TARGET, ADJUSTMENT_INTERVAL]
  split_ifs with h1 h2 <;> simp_all <;> omega

/-- adjust_difficulty: bounds and step size of the difficulty change
for an in-range u64 difficulty, and the frame on the other fields. -/
theorem adjustDifficulty_bounds (e : Epoch) (now : Int)
    (hd : 1 ≤ e.mining_difficulty) (hdle : e.mining_difficulty ≤ U64MAX) :
    1 ≤ (adjustDifficulty e now).mining_difficulty ∧
    (adjustDifficulty e now).mining_difficulty ≤ U64MAX ∧
    (adjustDifficulty e now).mining_difficulty ≤ e.mining_difficulty + 1 ∧
    e.mining_difficulty ≤ (adjustDifficulty e now).mining_difficulty + 1 ∧
    (adjustDifficulty e now).target_participation = e.target_participation ∧
    (adjustDifficulty e now).duplicates = e.duplicates ∧
    (adjustDifficulty e now).number = e.number := by
  rw [u64max_eq] at hdle
  simp only [adjustDifficulty, satAdd64, u64max_eq, MIN_MINING_DIFFICULTY]
  split_ifs <;> refine ⟨?_, ?_, ?_, ?_, rfl, rfl, rfl⟩ <;> simp <;> omega

/-- adjust_participation never touches the difficulty or the epoch
timestamp. -/
theorem adjustParticipation_frame (e : Epoch) :
    (adjustParticipation e).mining_difficulty = e.mining_difficulty ∧
    (adjustParticipation e).last_epoch_at = e.last_epoch_at := by
  simp only [adjustParticipation]
  split_ifs <;> exact ⟨rfl, rfl⟩

/-- adjust_difficulty moves with the block-time comparison: a
saturating step up when the mean block time is below the target
duration, a floored step down otherwise. -/
theorem adjustDifficulty_direction (e : Epoch) (now : Int) :
    (Int.tdiv (satSubI64 now e.last_epoch_at) (EPOCH_BLOCKS : Int) <
        (BLOCK_DURATION_SECONDS : Int) →
      (adjustDifficulty e now).mining_difficulty =
        min (e.mining_difficulty + 1) U64MAX) ∧
    (¬ Int.tdiv (satSubI64 now e.last_epoch_at) (EPOCH_BLOCKS : Int) <
        (BLOCK_DURATION_SECONDS : Int) →
      (adjustDifficulty e now).mining_difficulty =
        max (e.mining_difficulty - 1) MIN_MINING_DIFFICULTY) := by
  constructor <;> intro h <;> simp [adjustDifficulty, satAdd64, h]

/-- advance_epoch difficulty direction: the final floor clamp does not
disturb the saturating step of adjust_difficulty. -/
theorem advanceEpoch_difficulty_direction (e : Epoch) (now : Int)
    (hd : 1 ≤ e.mining_difficulty) :
    (Int.tdiv (satSubI64 now e.last_epoch_at) (EPOCH_BLOCKS : Int) <
        (BLOCK_DURATION_SECONDS : Int) →
      (advanceEpoch e now).mining_difficulty =
        min (e.mining_difficulty + 1) U64MAX) ∧
    (¬ Int.tdiv (satSubI64 now e.last_epoch_at) (EPOCH_BLOCKS : Int) <
        (BLOCK_DURATION_SECONDS : Int) →
      (advanceEpoch e now).mining_difficulty =
        max (e.mining_difficulty - 1) MIN_MINING_DIFFICULTY) := by
  obtain ⟨pf1, pf2⟩ := adjustParticipation_frame e
  obtain ⟨da, ds⟩ := adjustDifficulty_direction (adjustParticipation e) now
  rw [pf1, pf2] at da ds
  constructor <;> intro h
  · rw [show (advanceEpoch e now).mining_difficulty =
      max (adjustDifficulty (adjustParticipation e) now).mining_difficulty
        MIN_MINING_DIFFICULTY from rfl, da h]
    simp only [MIN_MINING_DIFFICULTY, u64max_eq]
    omega
  · rw [show (advanceEpoch e now).mining_difficulty =
      max (adjustDifficulty (adjustParticipation e) now).mining_difficulty
        MIN_MINING_DIFFICULTY from rfl, ds h]
    simp only [MIN_MINING_DIFFICULTY]
    omega

/-- advance_epoch keeps the difficulty floor and both participation
bounds, moves each knob by at most one step, and only moves the target
in the directions the duplicate count allows. -/
theorem advanceEpoch_bounds (e : Epoch) (now : Int)
    (hd : 1 ≤ e.mining_difficulty) (hdle : e.mining_difficulty ≤ U64MAX)
    (hlo : 1 ≤ e.target_participation) (hhi : e.target_participation ≤ 100) :
    1 ≤ (advanceEpoch e now).mining_difficulty ∧
    (advanceEpoch e now).mining_difficulty ≤ U64MAX ∧
    1 ≤ (advanceEpoch e now).target_participation ∧
    (advanceEpoch e now).target_participation ≤ 100 ∧
    (advanceEpoch e now).target_participation ≤ e.target_participation + 1 ∧
    e.target_participation ≤ (advanceEpoch e now).target_participation + 1 ∧
    (e.target_participation < (advanceEpoch e now).target_participation →
      e.duplicates = 0 ∧ e.number % ADJUSTMENT_INTERVAL = 0) ∧
    ((advanceEpoch e now).target_participation < e.target_participation →
      0 < e.duplicates) ∧
    (advanceEpoch e now).mining_difficulty ≤ e.mining_difficulty + 1 ∧
    e.mining_difficulty ≤ (advanceEpoch e now).mining_difficulty + 1 := by
  obtain ⟨p1, p2, p3, p4, p5, p6, pd, pdup, pnum, plast⟩ :=
    adjustParticipation_bounds e hlo hhi
  obtain ⟨d1, dle, d2, d3, dt, ddup, dnum⟩ :=
    adjustDifficulty_bounds (adjustParticipation e) now (pd ▸ hd) (pd ▸ hdle)
  simp only [advanceEpoch, MIN_MINING_DIFFICULTY, MIN_PARTICIPATION_TARGET]
  simp only [dt] at *
  rw [u64max_eq] at dle ⊢
  refine ⟨by omega, by omega, by omega, by omega, by omega, by omega,
    fun hlt => ?_, fun hlt => ?_, ?_, ?_⟩
  · exact p5 (by omega)
  · exact p6 (by omega)
  · omega
  · omega

/-- update_epoch preserves the difficulty floor and the participation
bounds. -/
theorem updateEpoch_invariant (e : Epoch) (a : Archive) (now : Int)
    (hd : 1 ≤ e.mining_difficulty) (hdle : e.mining_difficulty ≤ U64MAX)
    (hlo : 1 ≤ e.target_participation) (hhi : e.target_participation ≤ 100) :
    1 ≤ (updateEpoch e a now).mining_difficulty ∧
    (updateEpoch e a now).mining_difficulty ≤ U64MAX ∧
    1 ≤ (updateEpoch e a now).target_participation ∧
    (updateEpoch e a now).target_participation ≤ 100 := by
  obtain ⟨a1, a2, a3, a4, _⟩ := advanceEpoch_bounds e now hd hdle hlo hhi
  simp only [updateEpoch]
  split_ifs <;> simp_all

/-- Any fold of update_epoch steps preserves the difficulty floor and
the participation bounds. -/
theorem epochFold_invariant (steps : List (Archive × Int)) (e : Epoch)
    (hd : 1 ≤ e.mining_difficulty) (hdle : e.mining_difficulty ≤ U64MAX)
    (hlo : 1 ≤ e.target_participation) (hhi : e.target_participation ≤ 100) :
    1 ≤ (epochFold e steps).mining_difficulty ∧
    (epochFold e steps).mining_difficulty ≤ U64MAX ∧
    1 ≤ (epochFold e steps).target_participation ∧
    (epochFold e steps).target_participation ≤ 100 := by
  induction steps generalizing e with
  | nil => exact ⟨hd, hdle, hlo, hhi⟩
  | cons s rest ih =>
    obtain ⟨h1, h2, h3, h4⟩ := updateEpoch_invariant e s.1 s.2 hd hdle hlo hhi
    simpa [epochFold] using ih (updateEpoch e s.1 s.2) h1 h2 h3 h4

/-- C7 counterexample: at the difficulty floor with a slow epoch, the
mining difficulty is left unchanged by the epoch advance, refuting the
claim that every advance moves it by exactly 1 up or down. -/
theorem difficulty_floor_counterexample :
    (advanceEpoch { epoch0 with duplicates := 1 } 10000).mining_difficulty = 1 ∧
    ({ epoch0 with duplicates := 1 } : Epoch).mining_difficulty = 1 := by
  constructor
  · decide
  · decide

/-- The invariant-and-step half of the epoch adjustment bounds. -/
theorem epochBoundsInvariantAux (e : Epoch) (a : Archive) (now : Int)
    (steps : List (Archive × Int))
    (hd : MIN_MINING_DIFFICULTY ≤ e.mining_difficulty)
    (hdle : e.mining_difficulty ≤ U64MAX)
    (hlo : MIN_PARTICIPATION_TARGET ≤ e.target_participation)
    (hhi : e.target_participation ≤ MAX_PARTICIPATION_TARGET) :
    (MIN_MINING_DIFFICULTY ≤ (updateEpoch e a now).mining_difficulty ∧
      MIN_PARTICIPATION_TARGET ≤ (updateEpoch e a now).target_participation ∧
      (updateEpoch e a now).target_participation ≤ MAX_PARTICIPATION_TARGET) ∧
    (MIN_MINING_DIFFICULTY ≤ (epochFold e steps).mining_difficulty ∧
      MIN_PARTICIPATION_TARGET ≤ (epochFold e steps).target_participation ∧
      (epochFold e steps).target_participation ≤ MAX_PARTICIPATION_TARGET) ∧
    ((advanceEpoch e now).target_participation ≤ e.target_participation + 1 ∧
      e.target_participation ≤ (advanceEpoch e now).target_participation + 1) ∧
    (e.target_participation < (advanceEpoch e now).target_participation →
      e.duplicates = 0 ∧ e.number % ADJUSTMENT_INTERVAL = 0) ∧
    ((advanceEpoch e now).target_participation < e.target_participation →
      0 < e.duplicates) ∧
    ((advanceEpoch e now).mining_difficulty ≤ e.mining_difficulty + 1 ∧
      e.mining_difficulty ≤ (advanceEpoch e now).mining_difficulty + 1) := by
  obtain ⟨b1, b1a, b2, b3, b4, b5, b6, b7, b8, b9⟩ :=
    advanceEpoch_bounds e now hd hdle hlo hhi
  obtain ⟨u1, u2, u3, u4⟩ := updateEpoch_invariant e a now hd hdle hlo hhi
  obtain ⟨f1, f2, f3, f4⟩ := epochFold_invariant steps e hd hdle hlo hhi
  exact ⟨⟨u1, u3, u4⟩, ⟨f1, f3, f4⟩, ⟨b4, b5⟩, b6, b7, ⟨b8, b9⟩⟩

/-- The difficulty-direction half of the epoch adjustment bounds. -/
theorem epochBoundsDirectionAux (e : Epoch) (_a : Archive) (now : Int)
    (_steps : List (Archive × Int))
    (hd : MIN_MINING_DIFFICULTY ≤ e.mining_difficulty)
    (_hdle : e.mining_difficulty ≤ U64MAX)
    (_hlo : MIN_PARTICIPATION_TARGET ≤ e.target_participation)
    (_hhi : e.target_participation ≤ MAX_PARTICIPATION_TARGET) :
    (Int.tdiv (satSubI64 now e.last_epoch_at) (EPOCH_BLOCKS : Int) <
        (BLOCK_DURATION_SECONDS : Int) →
      (advanceEpoch e now).mining_difficulty =
        min (e.mining_difficulty + 1) U64MAX ∧
      (e.mining_difficulty < U64MAX →
        (advanceEpoch e now).mining_difficulty = e.mining_difficulty + 1)) ∧
    (¬ Int.tdiv (satSubI64 now e.last_epoch_at) (EPOCH_BLOCKS : Int) <
        (BLOCK_DURATION_SECONDS : Int) →
      (advanceEpoch e now).mining_difficulty =
        max (e.mining_difficulty - 1) MIN_MINING_DIFFICULTY ∧
      (MIN_MINING_DIFFICULTY < e.mining_difficulty →
        (advanceEpoch e now).mining_difficulty = e.mining_difficulty - 1) ∧
      (e.mining_difficulty = MIN_MINING_DIFFICULTY →
        (advanceEpoch e now).mining_difficulty = e.mining_difficulty))  := by
  obtain ⟨dfast, dslow⟩ := advanceEpoch_difficulty_direction e now hd
  refine ⟨fun hc => ⟨dfast hc, fun hlt => ?_⟩,
    fun hc => ⟨dslow hc, fun hlt => ?_, fun heq => ?_⟩⟩
  · rw [dfast hc, u64max_eq]
    rw [u64max_eq] at hlt
    omega
  · rw [dslow hc]
    simp only [MIN_MINING_DIFFICULTY] at hlt ⊢
    omega
  · rw [dslow hc]
    simp only [MIN_MINING_DIFFICULTY] at heq ⊢
    omega

/-- C7 amended: from any epoch with the mining difficulty at or above
its floor (and within u64 range) and the participation target within
its bounds, every update_epoch transition, and hence every fold of such
transitions, keeps the difficulty at or above MIN_MINING_DIFFICULTY and
the target within MIN and MAX_PARTICIPATION_TARGET; each epoch advance
moves the target by at most 1 (an increase only on a clean multiple of
ADJUSTMENT_INTERVAL, a decrease only when duplicates were seen) and the
mining difficulty by at most 1, in the direction of the block-time
comparison: when the mean block time is below the target duration, the
difficulty becomes its saturating increment (exactly 1 up unless
already at the u64 maximum, where it stays); otherwise it becomes its
decrement floored at MIN_MINING_DIFFICULTY (exactly 1 down unless at
the floor, where it stays). -/
theorem epoch_adjustment_bounds (e : Epoch) (a : Archive) (now : Int)
    (steps : List (Archive × Int))
    (hd : MIN_MINING_DIFFICULTY ≤ e.mining_difficulty)
    (hdle : e.mining_difficulty ≤ U64MAX)
    (hlo : MIN_PARTICIPATION_TARGET ≤ e.target_participation)
    (hhi : e.target_participation ≤ MAX_PARTICIPATION_TARGET) :
    (MIN_MINING_DIFFICULTY ≤ (updateEpoch e a now).mining_difficulty ∧
      MIN_PARTICIPATION_TARGET ≤ (updateEpoch e a now).target_participation ∧
      (updateEpoch e a now).target_participation ≤ MAX_PARTICIPATION_TARGET) ∧
    (MIN_MINING_DIFFICULTY ≤ (epochFold e steps).mining_difficulty ∧
      MIN_PARTICIPATION_TARGET ≤ (epochFold e steps).target_participation ∧
      (epochFold e steps).target_participation ≤ MAX_PARTICIPATION_TARGET) ∧
    ((advanceEpoch e now).target_participation ≤ e.target_participation + 1 ∧
      e.target_participation ≤ (advanceEpoch e now).target_participation + 1) ∧
    (e.target_participation < (advanceEpoch e now).target_participation →
      e.duplicates = 0 ∧ e.number % ADJUSTMENT_INTERVAL = 0) ∧
    ((advanceEpoch e now).target_participation < e.target_participation →
      0 < e.duplicates) ∧
    ((advanceEpoch e now).mining_difficulty ≤ e.mining_difficulty + 1 ∧
      e.mining_difficulty ≤ (advanceEpoch e now).mining_difficulty + 1) ∧
    (Int.tdiv (satSubI64 now e.last_epoch_at) (EPOCH_BLOCKS : Int) <
        (BLOCK_DURATION_SECONDS : Int) →
      (advanceEpoch e now).mining_difficulty =
        min (e.mining_difficulty + 1) U64MAX ∧
      (e.mining_difficulty < U64MAX →
        (advanceEpoch e now).mining_difficulty = e.mining_difficulty + 1)) ∧
    (¬ Int.tdiv (satSubI64 now e.last_epoch_at) (EPOCH_BLOCKS : Int) <
        (BLOCK_DURATION_SECONDS : Int) →
      (advanceEpoch e now).mining_difficulty =
        max (e.mining_difficulty - 1) MIN_MINING_DIFFICULTY ∧
      (MIN_MINING_DIFFICULTY < e.mining_difficulty →
        (advanceEpoch e now).mining_difficulty = e.mining_difficulty - 1) ∧
      (e.mining_difficulty = MIN_MINING_DIFFICULTY →
        (advanceEpoch e now).mining_difficulty = e.mining_difficulty)) := by
  obtain ⟨x1, x2, x3, x4, x5, x6⟩ := epochBoundsInvariantAux e a now steps hd hdle hlo hhi
  obtain ⟨g, h⟩ := epochBoundsDirectionAux e a now steps hd hdle hlo hhi
  exact ⟨x1, x2, x3, x4, x5, x6, g, h⟩

/-- C7 witness: the bounds evaluated from the floor state across one
concrete update step and a two-step fold, and the fast-epoch step that
raises the difficulty by exactly one. -/
theorem epoch_adjustment_bounds_witness :
    (MIN_MINING_DIFFICULTY ≤ epoch0.mining_difficulty ∧
      MIN_PARTICIPATION_TARGET ≤ epoch0.target_participation ∧
      epoch0.target_participation ≤ MAX_PARTICIPATION_TARGET) ∧
    (MIN_MINING_DIFFICULTY ≤
        (epochFold epoch0 [(archive0, 50), (archive0, 100)]).mining_difficulty ∧
      MIN_PARTICIPATION_TARGET ≤
        (epochFold epoch0 [(archive0, 50), (archive0, 100)]).target_participation ∧
      (epochFold epoch0 [(archive0, 50), (archive0, 100)]).target_participation ≤
        MAX_PARTICIPATION_TARGET) ∧
    (advanceEpoch epoch0 100).mining_difficulty = epoch0.mining_difficulty + 1 :=
  ⟨⟨by decide, by decide, by decide⟩,
    (epoch_adjustment_bounds epoch0 archive0 100 [(archive0, 50), (archive0, 100)]
      (by decide) (by decide) (by decide) (by decide)).2.1,
    ((epoch_adjustment_bounds epoch0 archive0 100 [(archive0, 50), (archive0, 100)]
      (by decide) (by decide) (by decide) (by decide)).2.2.2.2.2.2.1
      (by decide)).2 (by decide)⟩

/-! ## Claim C8: spool commit verification target -/

/-- C8 counterexample: a commit whose proof resolves the value against
spool.contains succeeds and records the commitment even though the
proof does not resolve the value against the spool tree root
spool.state.get_root(), showing the verification target is the contains
field, not the tree root. -/
theorem spool_commit_root_counterexample :
    spoolCommitCore cblake miner0 { spool0 with contains := [37] }
        (List.replicate 32 1) (List.replicate 18 (List.replicate 32 0)) =
      Except.ok { miner0 with commitment := List.replicate 32 1 } ∧
    chainRoot (hashLeftRight cblake) (List.replicate 32 1)
        (List.replicate 18 (List.replicate 32 0)) ≠
      ({ spool0 with contains := [37] } : Spool).state.getRoot := by
  constructor
  · decide
  · decide

/-- C8 amended: with a proof of the expected length, spool_commit
succeeds exactly when the supplied Merkle proof resolves the raw value
against spool.contains (the root republished by unpack, not the spool
tree root), failing with SpoolCommitFailed otherwise; on success the
value is recorded into the owning miner's commitment field and every
other miner field, and the spool, is unchanged. -/
theorem spool_commit_verifies_contains (blake3 : List Nat → Hash) (m : Miner)
    (s : Spool) (v : List Nat) (proof : List Hash)
    (hlen : proof.length = SEGMENT_PROOF_LEN) :
    (chainRoot (hashLeftRight blake3) v proof = s.contains →
      spoolCommitCore blake3 m s v proof = Except.ok { m with commitment := v }) ∧
    (chainRoot (hashLeftRight blake3) v proof ≠ s.contains →
      spoolCommitCore blake3 m s v proof =
        Except.error (PErr.TapeErr TapeError.SpoolCommitFailed)) := by
  constructor
  · intro hv
    simp [spoolCommitCore, hlen, verifyNoStd, hv]
  · intro hv
    simp [spoolCommitCore, hlen, verifyNoStd, hv]

/-- C8 witness: the two verification outcomes on a concrete spool whose
contains field matches the recomputed path of an 18-element proof. -/
theorem spool_commit_verifies_contains_witness :
    ((List.replicate 18 (List.replicate 32 0) : List Hash).length =
      SEGMENT_PROOF_LEN) ∧
    spoolCommitCore cblake miner0 { spool0 with contains := [37] }
        (List.replicate 32 1) (List.replicate 18 (List.replicate 32 0)) =
      Except.ok { miner0 with commitment := List.replicate 32 1 } ∧
    spoolCommitCore cblake miner0 { spool0 with contains := [99] }
        (List.replicate 32 1) (List.replicate 18 (List.replicate 32 0)) =
      Except.error (PErr.TapeErr TapeError.SpoolCommitFailed) := by
  refine ⟨by decide, ?_, ?_⟩
  · exact (spool_commit_verifies_contains cblake miner0 { spool0 with contains := [37] }
      (List.replicate 32 1) (List.replicate 18 (List.replicate 32 0)) (by decide)).1
      (by decide)
  · exact (spool_commit_verifies_contains cblake miner0 { spool0 with contains := [99] }
      (List.replicate 32 1) (List.replicate 18 (List.replicate 32 0)) (by decide)).2
      (by decide)

/-! ## Claim C1: the incremental Merkle root invariant

The correctness argument: the level loop of try_add_leaf, folded over a
leaf list, computes the same root as the level-by-level canonical fold
(canonRec), which in turn equals the canonical root of the leaves
padded to 2^N with zero-subtrees (canonicalPaddedRoot). The first step
rides on an overwrite lemma: inserting twice at the same index reads
only levels the first insertion never wrote, so the first insertion is
absorbed. -/

/-- Pairwise list induction: empty, singleton, and two-step cons. -/
theorem list_pair_induction {α : Type} {P : List α → Prop} (h0 : P [])
    (h1 : ∀ a, P [a]) (h2 : ∀ a b r, P r → P (a :: b :: r)) : ∀ l, P l
  | [] => h0
  | [a] => h1 a
  | a :: b :: r => h2 a b r (list_pair_induction h0 h1 h2 r)

/-- The byte comparison of hash_left_right is reflexive. -/
theorem bytesLe_refl : ∀ l : List Nat, bytesLe l l = true := by
  intro l
  induction l with
  | nil => rfl
  | cons a as ih => simp [bytesLe, ih]

/-- hash_left_right of equal children is the NODE hash of the pair. -/
theorem hashLeftRight_self (blake3 : List Nat → Hash) (z : Hash) :
    hashLeftRight blake3 z z = hashv blake3 [NODETAG, z, z] := by
  simp [hashLeftRight, bytesLe_refl]

/-- calc_zeros builds exactly the self-combination chain of the
canonicalized node hash. -/
theorem selfChain_eq_fchain (blake3 : List Nat → Hash) :
    ∀ (n : Nat) (h : Hash),
      selfChain blake3 h n = fchain (hashLeftRight blake3) h n := by
  intro n
  induction n with
  | zero => intro h; rfl
  | succ m ih =>
    intro h
    simp [selfChain, fchain, ih, hashLeftRight_self]

/-- Length of the generic zero chain. -/
theorem fchain_length (f : Hash → Hash → Hash) :
    ∀ (n : Nat) (z : Hash), (fchain f z n).length = n := by
  intro n
  induction n with
  | zero => intro z; rfl
  | succ m ih => intro z; simp [fchain, ih]

/-- Length of the padded pairing of one level. -/
theorem pairUpPad_length (f : Hash → Hash → Hash) (z : Hash) :
    ∀ l : List Hash, (pairUpPad f z l).length = (l.length + 1) / 2 := by
  refine list_pair_induction rfl (fun a => by simp [pairUpPad]) ?_
  intro a b r ih
  simp [pairUpPad, ih]
  omega

/-- Inserting at an index reads only the filled subtrees at the levels
where the index bit is odd, and writes only those where it is even, so
a second insertion at the same index ignores everything the first one
wrote. -/
theorem addLoop_overwrite (f : Hash → Hash → Hash) :
    ∀ (zs fs : List Hash) (idx : Nat) (v v' : Hash),
      addLoop f zs (addLoop f zs fs idx v).2 idx v' = addLoop f zs fs idx v' := by
  intro zs
  induction zs with
  | nil => intro fs idx v v'; rfl
  | cons z zs' ih =>
    intro fs idx v v'
    cases fs with
    | nil => rfl
    | cons s ss =>
      by_cases hp : idx % 2 = 0
      · simp [addLoop, hp, ih]
      · simp [addLoop, hp, ih]

/-- Level decomposition of the insertion fold: folding leaves into a
height n+1 tree drives the upper n levels exactly as folding the
pair-padded list into the height-n tree, while the bottom filled
subtree ends at some leaf value. -/
theorem addAll_cons_level (f : Hash → Hash → Hash) (z : Hash) (zs' : List Hash) :
    ∀ (L : List Hash) (k : Nat) (r : Hash) (f0 : Hash) (fs : List Hash),
      k % 2 = 0 →
      ∃ h0, addAll f (z :: zs') (r, f0 :: fs, k) L =
        ((addAll f zs' (r, fs, k / 2) (pairUpPad f z L)).1,
         h0 :: (addAll f zs' (r, fs, k / 2) (pairUpPad f z L)).2.1,
         k + L.length) := by
  refine list_pair_induction ?_ ?_ ?_
  · intro k r f0 fs hk
    exact ⟨f0, rfl⟩
  · intro x k r f0 fs hk
    refine ⟨x, ?_⟩
    simp [addAll, addLoop, pairUpPad, hk]
  · intro a b rest ih
    intro k r f0 fs hk
    have hk1 : (k + 1) % 2 = 1 := by omega
    have hk2 : (k + 2) % 2 = 0 := by omega
    have hdiv1 : (k + 1) / 2 = k / 2 := by omega
    have hdiv2 : (k + 2) / 2 = k / 2 + 1 := by omega
    obtain ⟨h0, hrec⟩ := ih (k + 2)
      (addLoop f zs' fs (k / 2) (f a b)).1 a
      (addLoop f zs' fs (k / 2) (f a b)).2 hk2
    refine ⟨h0, ?_⟩
    calc addAll f (z :: zs') (r, f0 :: fs, k) (a :: b :: rest)
        = addAll f (z :: zs')
            ((addLoop f zs' (addLoop f zs' fs (k / 2) (f a z)).2 (k / 2) (f a b)).1,
             a :: (addLoop f zs' (addLoop f zs' fs (k / 2) (f a z)).2 (k / 2) (f a b)).2,
             k + 2) rest := by
          simp [addAll, addLoop, hk, hk1, hdiv1]
      _ = addAll f (z :: zs')
            ((addLoop f zs' fs (k / 2) (f a b)).1, a :: (addLoop f zs' fs (k / 2) (f a b)).2,
             k + 2) rest := by
          rw [addLoop_overwrite]
      _ = ((addAll f zs' ((addLoop f zs' fs (k / 2) (f a b)).1,
              (addLoop f zs' fs (k / 2) (f a b)).2, k / 2 + 1) (pairUpPad f z rest)).1,
            h0 :: (addAll f zs' ((addLoop f zs' fs (k / 2) (f a b)).1,
              (addLoop f zs' fs (k / 2) (f a b)).2, k / 2 + 1) (pairUpPad f z rest)).2.1,
            k + (a :: b :: rest).length) := by
          rw [hrec]
          simp [hdiv2]
          omega
      _ = ((addAll f zs' (r, fs, k / 2) (pairUpPad f z (a :: b :: rest))).1,
            h0 :: (addAll f zs' (r, fs, k / 2) (pairUpPad f z (a :: b :: rest))).2.1,
            k + (a :: b :: rest).length) := by
          simp [pairUpPad, addAll]

/-- The root of the insertion fold from an empty tree is the
level-by-level canonical root. -/
theorem addAll_root_canon (f : Hash → Hash → Hash) :
    ∀ (zs L : List Hash) (r : Hash) (fs : List Hash),
      fs.length = zs.length → 1 ≤ L.length → L.length ≤ 2 ^ zs.length →
      (addAll f zs (r, fs, 0) L).1 = canonRec f zs L := by
  intro zs
  induction zs with
  | nil =>
    intro L r fs hlen h1 h2
    match L, h1, h2 with
    | [x], _, _ => cases fs <;> rfl
  | cons z zs' ih =>
    intro L r fs hlen h1 h2
    match fs, hlen with
    | f0 :: fs', hlen =>
      obtain ⟨h0, hrec⟩ := addAll_cons_level f z zs' L 0 r f0 fs' rfl
      rw [hrec]
      have hp : 2 ^ (zs'.length + 1) = 2 * 2 ^ zs'.length := by
        rw [pow_succ]; ring
      refine ih (pairUpPad f z L) r fs' (by simpa using hlen) ?_ ?_
      · rw [pairUpPad_length]; omega
      · rw [pairUpPad_length]
        simp only [List.length_cons] at h2
        omega

/-- Pairing a replicated level of zeros yields the replicated next
level. -/
theorem pairUp_replicate (f : Hash → Hash → Hash) (z : Hash) :
    ∀ m : Nat, pairUp f (List.replicate (2 * m) z) = List.replicate m (f z z) := by
  intro m
  induction m with
  | zero => rfl
  | succ t ih =>
    have : 2 * (t + 1) = 2 * t + 1 + 1 := by omega
    rw [this, List.replicate_succ, List.replicate_succ]
    simp [pairUp, ih, List.replicate_succ]

/-- Pairing a level padded with zero-subtrees: the real prefix pairs
with the padded pairing, and the zero suffix collapses one level. -/
theorem pairUp_append_replicate (f : Hash → Hash → Hash) (z : Hash) :
    ∀ (L : List Hash) (m : Nat), m % 2 = L.length % 2 →
      pairUp f (L ++ List.replicate m z) =
        pairUpPad f z L ++ List.replicate (m / 2) (f z z) := by
  refine list_pair_induction ?_ ?_ ?_
  · intro m hm
    have hm0 : m % 2 = 0 := by simpa using hm
    have h2 : m = 2 * (m / 2) := by omega
    conv_lhs => rw [List.nil_append, h2]
    rw [pairUp_replicate]
    rfl
  · intro a m hm
    simp only [List.length_cons, List.length_nil] at hm
    match m, hm with
    | t + 1, hm =>
      have hdiv : (t + 1) / 2 = t / 2 := by omega
      have key : pairUp f (List.replicate t z) =
          List.replicate ((t + 1) / 2) (f z z) := by
        rw [hdiv]
        have ht2 : t = 2 * (t / 2) := by omega
        conv_lhs => rw [ht2]
        rw [pairUp_replicate]
      rw [List.replicate_succ]
      simp only [List.singleton_append, pairUp, pairUpPad, key]
  · intro a b r ih
    intro m hm
    simp only [List.length_cons] at hm
    have := ih m (by omega)
    simp [pairUp, pairUpPad, this]

/-- Folding all levels of a padded leaf list produces exactly the
canonical level-by-level root over the zero chain. -/
theorem foldLevels_pad (f : Hash → Hash → Hash) :
    ∀ (n : Nat) (z : Hash) (L : List Hash),
      1 ≤ L.length → L.length ≤ 2 ^ n →
      foldLevels f n (L ++ List.replicate (2 ^ n - L.length) z) =
        [canonRec f (fchain f z n) L] := by
  intro n
  induction n with
  | zero =>
    intro z L h1 h2
    match L, h1, h2 with
    | [x], _, _ => rfl
  | succ m ih =>
    intro z L h1 h2
    have hp : 2 ^ (m + 1) = 2 * 2 ^ m := by rw [pow_succ]; ring
    have hpar : (2 ^ (m + 1) - L.length) % 2 = L.length % 2 := by omega
    have hlen : (pairUpPad f z L).length = (L.length + 1) / 2 := pairUpPad_length f z L
    calc foldLevels f (m + 1) (L ++ List.replicate (2 ^ (m + 1) - L.length) z)
        = foldLevels f m (pairUp f (L ++ List.replicate (2 ^ (m + 1) - L.length) z)) := by
          rfl
      _ = foldLevels f m
            (pairUpPad f z L ++ List.replicate ((2 ^ (m + 1) - L.length) / 2) (f z z)) := by
          rw [pairUp_append_replicate f z L _ hpar]
      _ = foldLevels f m
            (pairUpPad f z L ++
              List.replicate (2 ^ m - (pairUpPad f z L).length) (f z z)) := by
          have : (2 ^ (m + 1) - L.length) / 2 = 2 ^ m - (pairUpPad f z L).length := by
            rw [hlen]; omega
          rw [this]
      _ = [canonRec f (fchain f (f z z) m) (pairUpPad f z L)] := by
          refine ih (f z z) (pairUpPad f z L) ?_ ?_ <;> rw [hlen] <;> omega
      _ = [canonRec f (fchain f z (m + 1)) L] := by
          simp [fchain, canonRec]

/-- The canonical padded root coincides with the level-by-level
canonical root used by the algorithmic proof. -/
theorem canonicalPaddedRoot_eq (f : Hash → Hash → Hash) (z : Hash) (n : Nat)
    (L : List Hash) (h1 : 1 ≤ L.length) (h2 : L.length ≤ 2 ^ n) :
    canonicalPaddedRoot f z n L = canonRec f (fchain f z n) L := by
  unfold canonicalPaddedRoot
  rw [foldLevels_pad f n z L h1 h2]
  rfl

/-- While under capacity, folding try_add_leaf never fails and the
final tree is the state of the insertion fold with the zero values
untouched. -/
theorem foldAdds_ok (blake3 : List Nat → Hash) :
    ∀ (L : List Hash) (t : MerkleTree),
      t.next_index + L.length ≤ 2 ^ t.zero_values.length →
      foldAdds blake3 t L = Except.ok
        { root := (addAll (hashLeftRight blake3) t.zero_values
            (t.root, t.filled_subtrees, t.next_index) L).1
          filled_subtrees := (addAll (hashLeftRight blake3) t.zero_values
            (t.root, t.filled_subtrees, t.next_index) L).2.1
          zero_values := t.zero_values
          next_index := t.next_index + L.length } := by
  intro L
  induction L with
  | nil => intro t hcap; simp [foldAdds, addAll]
  | cons x xs ih =>
    intro t hcap
    have hlt : t.next_index < 2 ^ t.zero_values.length := by
      simp only [List.length_cons] at hcap
      omega
    have hstep : t.tryAddLeaf blake3 x = Except.ok
        { t with
          root := (addLoop (hashLeftRight blake3) t.zero_values t.filled_subtrees
            t.next_index x).1
          filled_subtrees := (addLoop (hashLeftRight blake3) t.zero_values
            t.filled_subtrees t.next_index x).2
          next_index := t.next_index + 1 } := by
      simp [MerkleTree.tryAddLeaf, hlt]
    have hcap2 : t.next_index + 1 + xs.length ≤ 2 ^ t.zero_values.length := by
      simp only [List.length_cons] at hcap
      omega
    have hrec := ih
      { root := (addLoop (hashLeftRight blake3) t.zero_values t.filled_subtrees
          t.next_index x).1
        filled_subtrees := (addLoop (hashLeftRight blake3) t.zero_values
          t.filled_subtrees t.next_index x).2
        zero_values := t.zero_values
        next_index := t.next_index + 1 } (by simpa using hcap2)
    simp only [foldAdds, hstep, hrec]
    simp [addAll]
    omega

/-- C1 counterexample: the freshly created height-1 tree stores root
zeros[0], which under a concrete digest differs from the canonical
Merkle root of zero leaves padded with zero-subtrees, so the root
invariant fails at k = 0. -/
theorem merkle_empty_root_counterexample :
    (MerkleTree.new cblake [[9]] 1).next_index = 0 ∧
    (MerkleTree.new cblake [[9]] 1).root ≠
      canonicalPaddedRoot (hashLeftRight cblake) (hashv cblake [[9]]) 1 [] := by
  constructor
  · rfl
  · decide

/-- C1 amended: for every height N at least 1, every seed and every
sequence of k leaves with 1 ≤ k ≤ 2^N appended to a fresh tree, every
append succeeds, next_index equals k (hence stays at most 2^N), and the
root equals the canonical Merkle root of those leaves padded to 2^N
with the precomputed zero-subtrees; when full, one more append fails
with TreeFull and changes nothing. At k = 0 the stored root is instead
the top zero value zeros[N-1]. -/
theorem merkle_incremental_root (blake3 : List Nat → Hash)
    (seeds : List (List Nat)) (n : Nat) (L : List Hash) (x : Hash)
    (_hn : 1 ≤ n) (h1 : 1 ≤ L.length) (h2 : L.length ≤ 2 ^ n) :
    ∃ tfin, foldAdds blake3 (MerkleTree.new blake3 seeds n) L = Except.ok tfin ∧
      tfin.next_index = L.length ∧
      tfin.root =
        canonicalPaddedRoot (hashLeftRight blake3) (hashv blake3 seeds) n L ∧
      (L.length = 2 ^ n →
        tfin.tryAddLeaf blake3 x = Except.error BrineTreeError.TreeFull) := by
  have hzlen : (calcZeros blake3 seeds n).length = n := by
    rw [calcZeros, selfChain_eq_fchain, fchain_length]
  have hcap : (MerkleTree.new blake3 seeds n).next_index + L.length ≤
      2 ^ (MerkleTree.new blake3 seeds n).zero_values.length := by
    simp [MerkleTree.new, hzlen]
    omega
  refine ⟨_, foldAdds_ok blake3 L (MerkleTree.new blake3 seeds n) hcap, ?_, ?_, ?_⟩
  · simp [MerkleTree.new]
  · have hroot := addAll_root_canon (hashLeftRight blake3)
      (calcZeros blake3 seeds n) L ((calcZeros blake3 seeds n).getLastD [])
      (calcZeros blake3 seeds n) rfl h1 (by rw [hzlen]; exact h2)
    simp only [MerkleTree.new]
    rw [hroot]
    rw [canonicalPaddedRoot_eq (hashLeftRight blake3) (hashv blake3 seeds) n L h1 h2]
    rw [calcZeros, selfChain_eq_fchain]
  · intro hfull
    simp [MerkleTree.tryAddLeaf, MerkleTree.new, hzlen, hfull]

/-- C1 witness: four leaves fill a height-2 tree built with the
concrete digest; the invariant and the TreeFull overflow are obtained
by applying the incremental-root theorem at this input. -/
theorem merkle_incremental_root_witness :
    (1 ≤ 2 ∧ 1 ≤ ([[5], [6], [7], [8]] : List Hash).length ∧
      ([[5], [6], [7], [8]] : List Hash).length ≤ 2 ^ 2) ∧
    ∃ tfin, foldAdds cblake (MerkleTree.new cblake [[9]] 2) [[5], [6], [7], [8]] =
        Except.ok tfin ∧
      tfin.next_index = ([[5], [6], [7], [8]] : List Hash).length ∧
      tfin.root = canonicalPaddedRoot (hashLeftRight cblake) (hashv cblake [[9]]) 2
        [[5], [6], [7], [8]] ∧
      (([[5], [6], [7], [8]] : List Hash).length = 2 ^ 2 →
        tfin.tryAddLeaf cblake [1] = Except.error BrineTreeError.TreeFull) :=
  ⟨⟨by decide, by decide, by decide⟩,
    merkle_incremental_root cblake [[9]] 2 [[5], [6], [7], [8]] [1]
      (by decide) (by decide) (by decide)⟩

end Tapedrive
